import Mathlib

/-!
Shallow embedding of the quiz-extraction pipeline of `src/streamlit_app.py`
(functions `extract_quiz_content_from_docx` and `generate_quiz_html`).
Lines are modelled as `List Char`; the Python string operations used by the
source (`strip`, `split('.', 1)`, `split(':', 1)`, `find`, `re.match`,
`re.split`, `startswith`) are reproduced below as executable functions.
-/

namespace Quiz

/-- Whitespace test used by Python `str.strip` (restricted to the ASCII
whitespace characters that can actually occur in the repository's data). -/
def isWS (c : Char) : Bool :=
  c == ' ' || c == '\t' || c == '\r' || c == '\n'

/-- Remove trailing whitespace characters. -/
def trimRight : List Char → List Char
  | [] => []
  | c :: r =>
    let t := trimRight r
    if t = [] then (if isWS c then [] else [c]) else c :: t

/-- Embeds Python `str.strip()`: remove leading and trailing whitespace. -/
def trimChars (l : List Char) : List Char :=
  trimRight (l.dropWhile isWS)

/-- Embeds Python `s.split('.', 1)`: the pair (text before the first `'.'`,
text after it).  When the string has no `'.'` the whole string is the first
component (the source only applies this to strings containing `'.'`). -/
def splitDot1 : List Char → List Char × List Char
  | [] => ([], [])
  | c :: r =>
    if c = '.' then ([], r)
    else
      let p := splitDot1 r
      (c :: p.1, p.2)

/-- Characters after the first `':'` (helper for `splitColon1Last`). -/
def afterFirstColon : List Char → List Char
  | [] => []
  | c :: r => if c = ':' then r else afterFirstColon r

/-- Embeds Python `s.split(':', 1)[-1]`: text after the first `':'`, or the
whole string when there is no `':'`. -/
def splitColon1Last (l : List Char) : List Char :=
  if l.contains ':' then afterFirstColon l else l

/-- True when the list starts with the two characters `"A."`. -/
def startsADot : List Char → Bool
  | 'A' :: '.' :: _ => true
  | _ => false

/-- Embeds Python `s.find("A.")`: index of the first occurrence of the
substring `"A."`, `none` when absent. -/
def findAPos : List Char → Option Nat
  | [] => none
  | c :: r => if startsADot (c :: r) then some 0 else (findAPos r).map (· + 1)

/-- Character class `[B-D]` of the option-delimiter regex. -/
def isBCD (c : Char) : Bool :=
  c == 'B' || c == 'C' || c == 'D'

/-- Embeds the regex prefix test `re.match(r'^[A-D]\. ', s)`. -/
def startsOption : List Char → Bool
  | c :: '.' :: ' ' :: _ => c == 'A' || isBCD c
  | _ => false

/-- Embeds the regex prefix test `re.match(r'^\d{1,2}\. ', s)`: one or two
decimal digits, a period, a space. -/
def isHeader (l : List Char) : Bool :=
  match l with
  | c0 :: c1 :: c2 :: rest =>
    (c0.isDigit && c1 == '.' && c2 == ' ') ||
    (c0.isDigit && c1.isDigit && c2 == '.' &&
      (match rest with | c3 :: _ => c3 == ' ' | [] => false))
  | _ => false

/-- The answer-marker token of the source, byte for byte (the source file
stores the check-mark emoji as the three characters `â`, `œ`, `…`). -/
def answerMarker : List Char := "âœ… Answer:".data

/-- Embeds the boundary regex `r'^\d{1,2}\. .*|âœ… Answer:.*'` of the inner
scan of `generate_quiz_html`. -/
def isBoundary (l : List Char) : Bool :=
  isHeader l || answerMarker.isPrefixOf l

/-- True when the list starts with the two characters `". "` (lookahead of
the option-delimiter regex). -/
def startsDotSpace : List Char → Bool
  | '.' :: ' ' :: _ => true
  | _ => false

/-- Embeds `re.split(r'([B-D]\. )', s)`: split on every occurrence of a
letter `B`–`D` followed by `". "`, keeping the delimiters as elements.
`acc` is the reversed current piece.  The `Nat` argument is fuel, used only
to make the recursion structural: each step consumes one unit of fuel and at
least one character, so any fuel of at least the list's length yields the
regex-split behaviour. -/
def splitBCDAuxF : Nat → List Char → List Char → List (List Char)
  | _, acc, [] => [acc.reverse]
  | 0, acc, _ :: _ => [acc.reverse]
  | fuel + 1, acc, c :: rest =>
    if isBCD c && startsDotSpace rest then
      acc.reverse :: [c, '.', ' '] :: splitBCDAuxF fuel [] (rest.drop 2)
    else splitBCDAuxF fuel (c :: acc) rest

/-- Delimiter-keeping split of the options blob. -/
def splitBCD (l : List Char) : List (List Char) :=
  splitBCDAuxF l.length [] l

/-- Embeds the regroup loop of `generate_quiz_html` (lines 95-105 of the
source): every piece that matches `^[A-D]\. ` starts a new option, every
other piece is appended to the option in progress, the last option is
flushed at the end; a flushed option is stripped and an empty accumulator is
never flushed. -/
def regroupOptions : List (List Char) → List Char → List (List Char)
  | [], temp => if temp = [] then [] else [trimChars temp]
  | p :: ps, temp =>
    if startsOption p then
      if temp = [] then regroupOptions ps p
      else trimChars temp :: regroupOptions ps p
    else regroupOptions ps (temp ++ p)

/-- Option segmentation: split the blob on `B. `/`C. `/`D. ` delimiters,
then regroup the pieces by `A.`–`D.` marker prefix. -/
def finalOptions (blob : List Char) : List (List Char) :=
  regroupOptions (splitBCD blob) []

/-- The record assembled for one question by `generate_quiz_html`
(the `current_question` dictionary of the source). -/
structure QuestionRecord where
  number : List Char
  text : List Char
  options : List (List Char)
  answer : List Char
deriving DecidableEq

/-- Embeds lines 74-117 of the source: from the merged question block and
the already-resolved answer, build the record.  The question/option split
locates the first `"A."`; when present, the question text is the slice of
the post-label remainder up to offset `a_pos - len(label) - 1` and the
options come from segmenting the blob from `a_pos` on; when absent, the
whole post-label remainder is the text and the options list is empty. -/
def buildRecord (qblock answer : List Char) : QuestionRecord :=
  let parts := splitDot1 qblock
  let qnum := trimChars parts.1
  match findAPos qblock with
  | some aPos =>
    { number := qnum
      text := trimChars (parts.2.take (aPos - parts.1.length - 1))
      options := finalOptions (trimChars (qblock.drop aPos))
      answer := answer }
  | none =>
    { number := qnum
      text := trimChars parts.2
      options := []
      answer := answer }

/-- Rendered block `<p>{q_num}. <b>{text}</b></p>`. -/
def questionHeaderBlock (num text : List Char) : List Char :=
  "<p>".data ++ num ++ ". <b>".data ++ text ++ "</b></p>".data

/-- Rendered block `<p>â€¢ {opt}</p>` (the bullet is the source's
three-character sequence `â`, `€`, `¢`). -/
def optionBlock (opt : List Char) : List Char :=
  "<p>â€¢ ".data ++ opt ++ "</p>".data

/-- Tag opening every correct-answer block of the source. -/
def correctAnswerTag : List Char := "<p><b>âœ” Correct Answer</b>: ".data

/-- Rendered block `<p><b>âœ” Correct Answer</b>: {answer}</p>`. -/
def answerBlock (ans : List Char) : List Char :=
  correctAnswerTag ++ ans ++ "</p>".data

/-- Blocks emitted for a record before its answer block: the header block,
then one bullet block per non-empty option (the source filters empty
options with `if opt:`). -/
def renderQuestion (q : QuestionRecord) : List (List Char) :=
  questionHeaderBlock q.number q.text ::
    (q.options.filter (fun o => o ≠ [])).map optionBlock

/-- Block closing the currently open record, if any (the source's
`if in_question_block:` answer-block emission). -/
def closeBlocks : Option (List Char) → List (List Char)
  | none => []
  | some a => [answerBlock a]

/-- Embeds the inner while loop (lines 79-82): sweep up and strip-concatenate
lines until the next boundary line, returning the merged continuation text
and the unconsumed remainder of the line list. -/
def collectBlock : List (List Char) → List Char × List (List Char)
  | [] => ([], [])
  | l :: rest =>
    if isBoundary (trimChars l) then ([], l :: rest)
    else
      let p := collectBlock rest
      (trimChars l ++ p.1, p.2)

/-- Embeds the answer lookahead (lines 129-144 of the source): given the
unconsumed remainder after the question block, if its first line is an
answer-marker line then the answer is the trimmed text after the first `':'`
and the scan continues after that line; otherwise the answer stays empty and
the scan continues at the remainder itself. -/
def answerStep : List (List Char) → List Char × List (List Char)
  | [] => ([], [])
  | a :: t =>
    if answerMarker.isPrefixOf (trimChars a) then
      (trimChars (splitColon1Last (trimChars a)), t)
    else ([], a :: t)

/-- Embeds the outer while loop of `generate_quiz_html` as a fuel-indexed
scan.  `pending` is `some a` when a question block is open with accumulated
answer `a` (the source's `in_question_block` / `current_question["answer"]`);
the result is the list of assembled records and the list of rendered blocks.
The fuel only serves termination: every recursive call consumes at least one
line, so any fuel exceeding the number of lines is enough (see
`reconstruct`). -/
def goFuel : Nat → List (List Char) → Option (List Char) → List QuestionRecord × List (List Char)
  | 0, _, _ => ([], [])
  | _ + 1, [], pending => ([], closeBlocks pending)
  | fuel + 1, l :: rest, pending =>
    let line := trimChars l
    if line = [] then goFuel fuel rest pending
    else if isHeader line then
      let q := buildRecord (line ++ (collectBlock rest).1) (answerStep (collectBlock rest).2).1
      let next := goFuel fuel (answerStep (collectBlock rest).2).2 (some (answerStep (collectBlock rest).2).1)
      (q :: next.1, closeBlocks pending ++ renderQuestion q ++ next.2)
    else goFuel fuel rest pending

/-- The whole reconstruction: records and rendered blocks of
`generate_quiz_html` on a line list. -/
def reconstruct (lines : List (List Char)) : List QuestionRecord × List (List Char) :=
  goFuel (lines.length + 1) lines none

/-- Embeds the return value of `generate_quiz_html`:
`'\n\n' + '\n'.join(html_output)`. -/
def generate_quiz_html (lines : List (List Char)) : List Char :=
  '\n' :: '\n' :: List.intercalate ['\n'] (reconstruct lines).2

/-- Continuation-phrase prefix test: embeds
`text.lower().startswith(pat)` for a lowercase literal `pat`. -/
def lowerStarts (pat t : List Char) : Bool :=
  pat.isPrefixOf (t.map Char.toLower)

/-- Embeds the classification loop of `extract_quiz_content_from_docx`
(lines 25-43): trim each paragraph, drop it when empty, keep it when it is a
question header, an answer-marker line, an option line, or starts with one
of the three fixed continuation phrases (case-insensitively), and drop every
other line. -/
def extract_quiz_content : List (List Char) → List (List Char)
  | [] => []
  | para :: rest =>
    let text := trimChars para
    if text = [] then extract_quiz_content rest
    else if isHeader text then text :: extract_quiz_content rest
    else if answerMarker.isPrefixOf text then text :: extract_quiz_content rest
    else if startsOption text || lowerStarts "to increase profit".data text
        || lowerStarts "they eliminate human".data text
        || lowerStarts "using encryption to".data text then
      text :: extract_quiz_content rest
    else extract_quiz_content rest

/-- Predicate of the Line Classifier's contract: the four kept line shapes
(question header; answer-marker line; option line; known continuation
phrase). -/
def keepLine (t : List Char) : Bool :=
  isHeader t || answerMarker.isPrefixOf t || startsOption t
    || lowerStarts "to increase profit".data t
    || lowerStarts "they eliminate human".data t
    || lowerStarts "using encryption to".data t

/-! Helper lemmas about the string primitives. -/

lemma digit_not_ws (c : Char) (h : c.isDigit = true) : isWS c = false := by
  have h0 : c ≠ ' ' := fun e => by rw [e] at h; exact absurd h (by decide)
  have h1 : c ≠ '\t' := fun e => by rw [e] at h; exact absurd h (by decide)
  have h2 : c ≠ '\r' := fun e => by rw [e] at h; exact absurd h (by decide)
  have h3 : c ≠ '\n' := fun e => by rw [e] at h; exact absurd h (by decide)
  simp only [isWS, Bool.or_eq_false_iff, beq_eq_false_iff_ne, ne_eq]
  exact ⟨⟨⟨h0, h1⟩, h2⟩, h3⟩

lemma trimRight_head (c : Char) (r : List Char) (h : isWS c = false) :
    ∃ t, trimRight (c :: r) = c :: t := by
  by_cases ht : trimRight r = []
  · exact ⟨[], by simp [trimRight, ht, h]⟩
  · exact ⟨trimRight r, by simp [trimRight, ht]⟩

lemma trimChars_head (c : Char) (r : List Char) (h : isWS c = false) :
    ∃ t, trimChars (c :: r) = c :: t := by
  unfold trimChars
  rw [List.dropWhile_cons, if_neg (by simp [h])]
  exact trimRight_head c r h

lemma trimRight_eq_self (l : List Char) (h : ∀ c ∈ l, isWS c = false) :
    trimRight l = l := by
  induction l with
  | nil => rfl
  | cons c r ih =>
    have hr := ih (fun x hx => h x (List.mem_cons_of_mem _ hx))
    have hstep : trimRight (c :: r) =
        if trimRight r = [] then (if isWS c then [] else [c]) else c :: trimRight r := by
      simp [trimRight]
    by_cases hr0 : r = []
    · subst hr0; simp [trimRight, h c (List.mem_cons_self _ _)]
    · have hne : trimRight r ≠ [] := by rw [hr]; exact hr0
      rw [hstep, if_neg hne, hr]

lemma trimChars_eq_self (l : List Char) (h : ∀ c ∈ l, isWS c = false) :
    trimChars l = l := by
  cases l with
  | nil => rfl
  | cons c r =>
    unfold trimChars
    rw [List.dropWhile_cons, if_neg (by simp [h c (List.mem_cons_self _ _)])]
    exact trimRight_eq_self _ h

lemma splitDot1_append (pre z : List Char) (h : '.' ∉ pre) :
    splitDot1 (pre ++ '.' :: z) = (pre, z) := by
  induction pre with
  | nil => simp [splitDot1]
  | cons c p ih =>
    have hc : c ≠ '.' := fun e => h (by simp [e])
    have hp : '.' ∉ p := fun hm => h (List.mem_cons_of_mem _ hm)
    simp [splitDot1, hc, ih hp]

/-! Helper lemmas about the line classifiers. -/

lemma isHeader_shape (l : List Char) (h : isHeader l = true) :
    ∃ pre post, l = pre ++ '.' :: ' ' :: post ∧ pre ≠ [] ∧ ∀ c ∈ pre, c.isDigit = true := by
  match l with
  | [] => simp [isHeader] at h
  | [c0] => simp [isHeader] at h
  | [c0, c1] => simp [isHeader] at h
  | c0 :: c1 :: c2 :: rest =>
    simp only [isHeader, Bool.or_eq_true, Bool.and_eq_true, beq_iff_eq] at h
    rcases h with ⟨⟨hd, h1⟩, h2⟩ | ⟨⟨⟨hd0, hd1⟩, h2⟩, h3⟩
    · subst h1; subst h2
      exact ⟨[c0], rest, rfl, by simp, by simpa using hd⟩
    · subst h2
      cases rest with
      | nil => simp at h3
      | cons c3 rest' =>
        simp only [beq_iff_eq] at h3
        subst h3
        refine ⟨[c0, c1], rest', rfl, by simp, ?_⟩
        intro c hc
        simp only [List.mem_cons, List.not_mem_nil, or_false] at hc
        rcases hc with rfl | rfl
        · exact hd0
        · exact hd1

lemma isHeader_head_digit (l : List Char) (h : isHeader l = true) :
    ∃ c r, l = c :: r ∧ c.isDigit = true := by
  obtain ⟨pre, post, rfl, hpre, hdig⟩ := isHeader_shape l h
  cases pre with
  | nil => exact absurd rfl hpre
  | cons c p =>
    exact ⟨c, p ++ '.' :: ' ' :: post, by simp, hdig c (List.mem_cons_self _ _)⟩

lemma isHeader_ne_nil (l : List Char) (h : isHeader l = true) : l ≠ [] := by
  obtain ⟨c, r, rfl, _⟩ := isHeader_head_digit l h
  exact List.cons_ne_nil _ _

lemma marker_head (l : List Char) (h : answerMarker.isPrefixOf l = true) :
    ∃ r, l = 'â' :: r := by
  cases l with
  | nil => exact absurd h (by decide)
  | cons c r =>
    have hm : answerMarker = 'â' :: "œ… Answer:".data := by decide
    rw [hm] at h
    simp only [List.isPrefixOf, Bool.and_eq_true, beq_iff_eq] at h
    exact ⟨r, by rw [← h.1]⟩

lemma isHeader_not_marker (l : List Char) (h : isHeader l = true) :
    answerMarker.isPrefixOf l = false := by
  by_contra hne
  have hp : answerMarker.isPrefixOf l = true := by
    cases hb : answerMarker.isPrefixOf l
    · exact absurd hb hne
    · rfl
  obtain ⟨r, rfl⟩ := marker_head l hp
  obtain ⟨c, r', heq, hd⟩ := isHeader_head_digit _ h
  rw [List.cons.injEq] at heq
  rw [← heq.1] at hd
  exact absurd hd (by decide)

lemma isHeader_isBoundary (l : List Char) (h : isHeader l = true) :
    isBoundary l = true := by
  simp [isBoundary, h]

lemma marker_isBoundary (l : List Char) (h : answerMarker.isPrefixOf l = true) :
    isBoundary l = true := by
  simp [isBoundary, h]

/-! Helper lemmas about the block scan. -/

lemma collectBlock_boundary (a : List Char) (rest : List (List Char))
    (h : isBoundary (trimChars a) = true) :
    collectBlock (a :: rest) = ([], a :: rest) := by
  simp [collectBlock, h]

lemma collectBlock_cons_nb (a : List Char) (rest : List (List Char))
    (h : isBoundary (trimChars a) = false) :
    collectBlock (a :: rest) = (trimChars a ++ (collectBlock rest).1, (collectBlock rest).2) := by
  simp [collectBlock, h]

lemma collectBlock_append (body : List (List Char)) (a : List Char) (rest : List (List Char))
    (hb : ∀ b ∈ body, isBoundary (trimChars b) = false)
    (ha : isBoundary (trimChars a) = true) :
    collectBlock (body ++ a :: rest) = ((body.map trimChars).flatten, a :: rest) := by
  induction body with
  | nil => simpa using collectBlock_boundary a rest ha
  | cons b bs ih =>
    have hb0 : isBoundary (trimChars b) = false := hb b (List.mem_cons_self _ _)
    have hbs : ∀ x ∈ bs, isBoundary (trimChars x) = false :=
      fun x hx => hb x (List.mem_cons_of_mem _ hx)
    rw [List.cons_append, collectBlock_cons_nb b _ hb0, ih hbs]
    simp

/-! Helper lemmas about the question/option split. -/

lemma startsADot_shape (l : List Char) (h : startsADot l = true) :
    ∃ t, l = 'A' :: '.' :: t := by
  unfold startsADot at h
  split at h
  · exact ⟨_, rfl⟩
  · simp at h

lemma findAPos_drop (l : List Char) :
    ∀ n, findAPos l = some n → startsADot (l.drop n) = true := by
  induction l with
  | nil => intro n h; simp [findAPos] at h
  | cons c r ih =>
    intro n h
    by_cases hs : startsADot (c :: r) = true
    · rw [findAPos, if_pos hs] at h
      have hn : n = 0 := by simpa using h.symm
      subst hn
      simpa using hs
    · rw [findAPos, if_neg hs] at h
      obtain ⟨m, hm, hmn⟩ := Option.map_eq_some'.mp h
      subst hmn
      rw [List.drop_succ_cons]
      exact ih m hm

lemma startsOption_shape (p : List Char) (h : startsOption p = true) :
    ∃ c t, p = c :: '.' :: ' ' :: t ∧ (c = 'A' ∨ c = 'B' ∨ c = 'C' ∨ c = 'D') := by
  unfold startsOption at h
  split at h
  · rename_i c t
    simp only [isBCD, Bool.or_eq_true, beq_iff_eq] at h
    exact ⟨c, t, rfl, by tauto⟩
  · simp at h

lemma splitBCDAuxF_shape (fuel : Nat) :
    ∀ l acc : List Char, ∃ t rs, splitBCDAuxF fuel acc l = (acc.reverse ++ t) :: rs := by
  induction fuel with
  | zero =>
    intro l acc
    cases l with
    | nil => exact ⟨[], [], by simp [splitBCDAuxF]⟩
    | cons c rest => exact ⟨[], [], by simp [splitBCDAuxF]⟩
  | succ n ih =>
    intro l acc
    cases l with
    | nil => exact ⟨[], [], by simp [splitBCDAuxF]⟩
    | cons c rest =>
      by_cases hd : (isBCD c && startsDotSpace rest) = true
      · exact ⟨[], [c, '.', ' '] :: splitBCDAuxF n [] (rest.drop 2), by
          rw [splitBCDAuxF, if_pos hd]; simp⟩
      · obtain ⟨t, rs, heq⟩ := ih rest (c :: acc)
        refine ⟨[c] ++ t, rs, ?_⟩
        rw [splitBCDAuxF, if_neg hd]
        simpa [List.append_assoc] using heq

/-- A list whose first character is one of the option letters `A`–`D`. -/
def HeadLetter (l : List Char) : Prop :=
  ∃ c t, l = c :: t ∧ (c = 'A' ∨ c = 'B' ∨ c = 'C' ∨ c = 'D')

lemma letter_not_ws (c : Char) (h : c = 'A' ∨ c = 'B' ∨ c = 'C' ∨ c = 'D') :
    isWS c = false := by
  rcases h with rfl | rfl | rfl | rfl <;> decide

lemma trim_headLetter (l : List Char) (h : HeadLetter l) :
    trimChars l ≠ [] ∧ HeadLetter (trimChars l) := by
  obtain ⟨c, t, rfl, hc⟩ := h
  obtain ⟨t', ht⟩ := trimChars_head c t (letter_not_ws c hc)
  rw [ht]
  exact ⟨List.cons_ne_nil _ _, ⟨c, t', rfl, hc⟩⟩

lemma regroup_good : ∀ ps : List (List Char), ∀ temp : List Char,
    temp ≠ [] → HeadLetter temp →
    ∀ o ∈ regroupOptions ps temp, o ≠ [] ∧ HeadLetter o := by
  intro ps
  induction ps with
  | nil =>
    intro temp h1 h2 o ho
    rw [regroupOptions, if_neg h1] at ho
    simp only [List.mem_singleton] at ho
    subst ho
    exact trim_headLetter temp h2
  | cons p ps ih =>
    intro temp h1 h2 o ho
    by_cases hs : startsOption p = true
    · obtain ⟨c, t, rfl, hc⟩ := startsOption_shape p hs
      rw [regroupOptions, if_pos hs, if_neg h1] at ho
      rcases List.mem_cons.mp ho with rfl | ho'
      · exact trim_headLetter temp h2
      · exact ih (c :: '.' :: ' ' :: t) (List.cons_ne_nil _ _) ⟨c, _, rfl, hc⟩ o ho'
    · rw [regroupOptions, if_neg hs] at ho
      obtain ⟨c, t, rfl, hc⟩ := h2
      exact ih ((c :: t) ++ p) (List.cons_ne_nil _ _) ⟨c, t ++ p, rfl, hc⟩ o ho

lemma finalOptions_good (t : List Char) :
    ∀ o ∈ finalOptions ('A' :: t), o ≠ [] ∧ HeadLetter o := by
  intro o ho
  unfold finalOptions splitBCD at ho
  rw [show ('A' :: t).length = t.length + 1 from rfl] at ho
  rw [splitBCDAuxF,
    if_neg (by rw [show isBCD 'A' = false from rfl, Bool.false_and]; exact Bool.false_ne_true)] at ho
  obtain ⟨u, rs, heq⟩ := splitBCDAuxF_shape t.length t ['A']
  have heq' : splitBCDAuxF t.length ['A'] t = ('A' :: u) :: rs := by simpa using heq
  rw [heq'] at ho
  have hmem : o ∈ regroupOptions rs ('A' :: u) := by
    by_cases hs : startsOption ('A' :: u) = true
    · rwa [regroupOptions, if_pos hs, if_pos rfl] at ho
    · rw [regroupOptions, if_neg hs, List.nil_append] at ho
      exact ho
  exact regroup_good rs ('A' :: u) (List.cons_ne_nil _ _) ⟨'A', u, rfl, Or.inl rfl⟩ o hmem

/-! Helper lemmas about `buildRecord` and the outer scan. -/

lemma buildRecord_number_def (qb ans : List Char) :
    (buildRecord qb ans).number = trimChars (splitDot1 qb).1 := by
  unfold buildRecord
  split <;> rfl

lemma buildRecord_number_ne_nil (hl z ans : List Char) (hh : isHeader hl = true) :
    (buildRecord (hl ++ z) ans).number ≠ [] := by
  obtain ⟨pre, post, rfl, hpre, hdig⟩ := isHeader_shape hl hh
  have hnd : '.' ∉ pre := fun hm => by
    have := hdig '.' hm
    exact absurd this (by decide)
  have hassoc : (pre ++ '.' :: ' ' :: post) ++ z = pre ++ '.' :: (' ' :: (post ++ z)) := by
    simp [List.append_assoc]
  rw [buildRecord_number_def, hassoc, splitDot1_append pre _ hnd]
  rw [trimChars_eq_self pre (fun c hc => digit_not_ws c (hdig c hc))]
  exact hpre

lemma buildRecord_options_good (qblock ans : List Char) :
    ∀ o ∈ (buildRecord qblock ans).options, o ≠ [] ∧ HeadLetter o := by
  intro o ho
  unfold buildRecord at ho
  cases hA : findAPos qblock with
  | none => rw [hA] at ho; simp at ho
  | some aPos =>
    rw [hA] at ho
    simp only at ho
    obtain ⟨t, hdrop⟩ := startsADot_shape _ (findAPos_drop qblock aPos hA)
    rw [hdrop] at ho
    obtain ⟨t', ht'⟩ := trimChars_head 'A' ('.' :: t) (by decide)
    rw [ht'] at ho
    exact finalOptions_good t' o ho

lemma goFuel_nil (n : Nat) (pending : Option (List Char)) :
    goFuel (n + 1) [] pending = ([], closeBlocks pending) := by
  simp [goFuel]

lemma goFuel_skip (n : Nat) (l : List Char) (rest : List (List Char))
    (pending : Option (List Char)) (h0 : trimChars l = []) :
    goFuel (n + 1) (l :: rest) pending = goFuel n rest pending := by
  simp [goFuel, h0]

lemma goFuel_other (n : Nat) (l : List Char) (rest : List (List Char))
    (pending : Option (List Char)) (h0 : trimChars l ≠ [])
    (h1 : isHeader (trimChars l) = false) :
    goFuel (n + 1) (l :: rest) pending = goFuel n rest pending := by
  simp [goFuel, h0, h1]

lemma goFuel_header (n : Nat) (l : List Char) (rest : List (List Char))
    (pending : Option (List Char)) (hh : isHeader (trimChars l) = true) :
    goFuel (n + 1) (l :: rest) pending =
      (buildRecord (trimChars l ++ (collectBlock rest).1) (answerStep (collectBlock rest).2).1 ::
        (goFuel n (answerStep (collectBlock rest).2).2 (some (answerStep (collectBlock rest).2).1)).1,
       closeBlocks pending ++
        renderQuestion
          (buildRecord (trimChars l ++ (collectBlock rest).1) (answerStep (collectBlock rest).2).1) ++
        (goFuel n (answerStep (collectBlock rest).2).2 (some (answerStep (collectBlock rest).2).1)).2) := by
  have h0 : trimChars l ≠ [] := by
    intro e
    rw [e] at hh
    exact absurd hh (by decide)
  simp [goFuel, h0, hh]

lemma goFuel_records (fuel : Nat) :
    ∀ lines pending q, q ∈ (goFuel fuel lines pending).1 →
      ∃ l tail ans, isHeader (trimChars l) = true ∧
        q = buildRecord (trimChars l ++ (collectBlock tail).1) ans := by
  induction fuel with
  | zero => intro lines pending q hq; simp [goFuel] at hq
  | succ n ih =>
    intro lines pending q hq
    cases lines with
    | nil => rw [goFuel_nil] at hq; simp at hq
    | cons l rest =>
      by_cases h0 : trimChars l = []
      · rw [goFuel_skip n l rest pending h0] at hq
        exact ih rest pending q hq
      · by_cases h1 : isHeader (trimChars l) = true
        · rw [goFuel_header n l rest pending h1] at hq
          rcases List.mem_cons.mp hq with rfl | hq'
          · exact ⟨l, rest, (answerStep (collectBlock rest).2).1, h1, rfl⟩
          · exact ih _ _ q hq'
        · rw [goFuel_other n l rest pending h0 (by simpa using h1)] at hq
          exact ih rest pending q hq

lemma goFuel_no_header (fuel : Nat) :
    ∀ lines, (∀ l ∈ lines, isHeader (trimChars l) = false) →
      goFuel fuel lines none = ([], []) := by
  induction fuel with
  | zero => intro lines _; rfl
  | succ n ih =>
    intro lines h
    cases lines with
    | nil => rw [goFuel_nil]; rfl
    | cons l rest =>
      have hrest : ∀ x ∈ rest, isHeader (trimChars x) = false :=
        fun x hx => h x (List.mem_cons_of_mem _ hx)
      by_cases h0 : trimChars l = []
      · rw [goFuel_skip n l rest none h0]
        exact ih rest hrest
      · rw [goFuel_other n l rest none h0 (h l (List.mem_cons_self _ _))]
        exact ih rest hrest

/-! Claim theorems. -/

/-- C1: on the classified input
`["1. What is X?", "A. Opt1", "B. Opt2", "C. Opt3", "D. Opt4", "<marker>Answer: B. Opt2"]`
the Reconstructor produces exactly one QuestionRecord with number `"1"`, text
`"What is X?"`, the four options in A–D order and answer `"B. Opt2"`, and the
rendered markup contains exactly one "Correct Answer" block, whose answer
text is `"B. Opt2"`. -/
theorem claim_c1_end_to_end :
    (reconstruct ["1. What is X?".data, "A. Opt1".data, "B. Opt2".data, "C. Opt3".data,
        "D. Opt4".data, "âœ… Answer: B. Opt2".data]).1 =
      [{ number := "1".data, text := "What is X?".data,
         options := ["A. Opt1".data, "B. Opt2".data, "C. Opt3".data, "D. Opt4".data],
         answer := "B. Opt2".data }] ∧
    (reconstruct ["1. What is X?".data, "A. Opt1".data, "B. Opt2".data, "C. Opt3".data,
        "D. Opt4".data, "âœ… Answer: B. Opt2".data]).2.filter
        (fun b => correctAnswerTag.isPrefixOf b) =
      [answerBlock "B. Opt2".data] := by
  decide

/-- C2, counterexample: on the single classified line `"1. A. Opt"` the
Reconstructor emits a QuestionRecord whose text is empty (the substring
`"A."` directly follows the numeric label, so the text slice is blank),
refuting the claim that every emitted record has non-empty number and text. -/
theorem claim_c2_counterexample :
    ¬ ∀ q ∈ (reconstruct ["1. A. Opt".data]).1, q.number ≠ [] ∧ q.text ≠ [] := by
  decide

/-- C2, amended: for every input line sequence, every emitted QuestionRecord
has a non-empty number (the text, however, can be empty, as the
counterexample shows). -/
theorem claim_c2_number_nonempty (lines : List (List Char)) (q : QuestionRecord)
    (hq : q ∈ (reconstruct lines).1) : q.number ≠ [] := by
  have hq' : q ∈ (goFuel (lines.length + 1) lines none).1 := hq
  obtain ⟨l, tail, ans, hh, rfl⟩ := goFuel_records (lines.length + 1) lines none q hq'
  exact buildRecord_number_ne_nil (trimChars l) _ ans hh

/-- C2, witness: the amended theorem applied to the concrete input
`["1. Q"]` and its emitted record. -/
theorem claim_c2_witness : ("1".data : List Char) ≠ [] :=
  claim_c2_number_nonempty ["1. Q".data]
    { number := "1".data, text := "Q".data, options := [], answer := [] } (by decide)

/-- C3: segmentation of the merged options blob
`"A. Reduce costB. Increase profitC. Improve UID. Reduce risk"` yields
exactly the four options `"A. Reduce cost"`, `"B. Increase profit"`,
`"C. Improve UI"`, `"D. Reduce risk"`, with no boundary letter leaked. -/
theorem claim_c3_option_regroup :
    finalOptions "A. Reduce costB. Increase profitC. Improve UID. Reduce risk".data =
      ["A. Reduce cost".data, "B. Increase profit".data, "C. Improve UI".data,
       "D. Reduce risk".data] := by
  decide

/-- C4, counterexample: on the classified input
`["1. Q", "A. a", "B. b", "C. c", "D. d", "B. e"]` the emitted record has
five options whose leading letters repeat (`A, B, C, D, B`), refuting both
the 1–4 bound and the pairwise distinctness of leading letters. -/
theorem claim_c4_counterexample :
    ¬ ∀ q ∈ (reconstruct ["1. Q".data, "A. a".data, "B. b".data, "C. c".data,
        "D. d".data, "B. e".data]).1,
      q.options ≠ [] →
        (1 ≤ q.options.length ∧ q.options.length ≤ 4 ∧
         (q.options.map (fun o => o.head?)).Nodup) := by
  decide

/-- C4, amended: for every input line sequence, every option of every
emitted QuestionRecord is non-empty and begins with one of the letters
A–D (but the number of options can exceed 4 and leading letters can repeat,
as the counterexample shows). -/
theorem claim_c4_options_wellformed (lines : List (List Char)) (q : QuestionRecord)
    (o : List Char) (hq : q ∈ (reconstruct lines).1) (ho : o ∈ q.options) :
    o ≠ [] ∧ HeadLetter o := by
  have hq' : q ∈ (goFuel (lines.length + 1) lines none).1 := hq
  obtain ⟨l, tail, ans, hh, rfl⟩ := goFuel_records (lines.length + 1) lines none q hq'
  exact buildRecord_options_good _ ans o ho

/-- C4, witness: the amended theorem applied to the concrete input
`["1. Q", "A. x"]`, its emitted record and its single option. -/
theorem claim_c4_witness : ("A. x".data : List Char) ≠ [] ∧ HeadLetter "A. x".data :=
  claim_c4_options_wellformed ["1. Q".data, "A. x".data]
    { number := "1".data, text := "Q".data, options := ["A. x".data], answer := [] }
    "A. x".data (by decide) (by decide)

/-- C10: for every input line sequence with no question-header line, the
Reconstructor emits no records and no blocks, and `generate_quiz_html`
returns exactly the two-newline string. -/
theorem claim_c10_no_headers (lines : List (List Char))
    (h : ∀ l ∈ lines, isHeader (trimChars l) = false) :
    (reconstruct lines).1 = [] ∧ generate_quiz_html lines = ['\n', '\n'] := by
  have hg : goFuel (lines.length + 1) lines none = ([], []) :=
    goFuel_no_header (lines.length + 1) lines h
  constructor
  · show (goFuel (lines.length + 1) lines none).1 = []
    rw [hg]
  · show '\n' :: '\n' :: List.intercalate ['\n'] (goFuel (lines.length + 1) lines none).2 =
      ['\n', '\n']
    rw [hg]
    rfl

/-- C10, witness: the theorem applied to the concrete header-free input
`["A. x", "<marker>Answer: y"]` (an option line and an answer line with no
question header). -/
theorem claim_c10_witness :
    (reconstruct ["A. x".data, "âœ… Answer: y".data]).1 = [] ∧
      generate_quiz_html ["A. x".data, "âœ… Answer: y".data] = ['\n', '\n'] :=
  claim_c10_no_headers ["A. x".data, "âœ… Answer: y".data] (by decide)

/-- C5: whenever a question header is immediately followed by another
question header (no answer-marker line between them), the first header's
record is emitted with an empty answer, and the second header is not
consumed: the scan continues on the line list starting at the second
header. -/
theorem claim_c5_no_answer_line (h1 h2 : List Char) (post : List (List Char)) (fuel : Nat)
    (pending : Option (List Char)) (hh1 : isHeader (trimChars h1) = true)
    (hh2 : isHeader (trimChars h2) = true) :
    goFuel (fuel + 1) (h1 :: h2 :: post) pending =
      (buildRecord (trimChars h1) [] :: (goFuel fuel (h2 :: post) (some [])).1,
       closeBlocks pending ++ renderQuestion (buildRecord (trimChars h1) []) ++
         (goFuel fuel (h2 :: post) (some [])).2) := by
  have hcb : collectBlock (h2 :: post) = ([], h2 :: post) :=
    collectBlock_boundary h2 post (isHeader_isBoundary _ hh2)
  have has : answerStep (h2 :: post) = ([], h2 :: post) := by
    rw [answerStep, if_neg]
    rw [isHeader_not_marker _ hh2]
    exact Bool.false_ne_true
  rw [goFuel_header fuel h1 (h2 :: post) pending hh1, hcb]
  simp [has]

/-- C5, witness: the theorem applied to the concrete input
`["1. Q", "2. R"]`. -/
theorem claim_c5_witness :
    goFuel (1 + 1) ("1. Q".data :: "2. R".data :: []) none =
      (buildRecord (trimChars "1. Q".data) [] ::
        (goFuel 1 ("2. R".data :: []) (some [])).1,
       closeBlocks none ++ renderQuestion (buildRecord (trimChars "1. Q".data) []) ++
         (goFuel 1 ("2. R".data :: []) (some [])).2) :=
  claim_c5_no_answer_line "1. Q".data "2. R".data [] 1 none (by decide) (by decide)

/-- C6: a question block (header plus merged non-boundary lines) with no
occurrence of `"A."` never raises: a record is emitted whose options list
is empty and whose text is the whole block after the numeric label and
first period, trimmed. -/
theorem claim_c6_no_options (h : List Char) (tail : List (List Char)) (fuel : Nat)
    (pending : Option (List Char)) (hh : isHeader (trimChars h) = true)
    (hA : findAPos (trimChars h ++ (collectBlock tail).1) = none) :
    ∃ q, (goFuel (fuel + 1) (h :: tail) pending).1.head? = some q ∧
      q.options = [] ∧
      q.text = trimChars (splitDot1 (trimChars h ++ (collectBlock tail).1)).2 := by
  rw [goFuel_header fuel h tail pending hh]
  refine ⟨_, rfl, ?_, ?_⟩
  · simp [buildRecord, hA]
  · simp [buildRecord, hA]

/-- C6, witness: the theorem applied to the concrete input `["1. Q"]`,
whose block contains no `"A."`. -/
theorem claim_c6_witness :
    ∃ q, (goFuel (0 + 1) ("1. Q".data :: []) none).1.head? = some q ∧
      q.options = [] ∧
      q.text = trimChars (splitDot1 (trimChars "1. Q".data ++ (collectBlock []).1)).2 :=
  claim_c6_no_options "1. Q".data [] 0 none (by decide) (by decide)

/-- C8: a document ending in a complete question/answer pair (header, any
non-boundary body lines, then an answer-marker line, with nothing after it)
still emits that record, with its answer and its trailing answer block, at
end of input. -/
theorem claim_c8_eof_flush (h ansLine : List Char) (body : List (List Char)) (fuel : Nat)
    (pending : Option (List Char))
    (hh : isHeader (trimChars h) = true)
    (hb : ∀ b ∈ body, isBoundary (trimChars b) = false)
    (ha : answerMarker.isPrefixOf (trimChars ansLine) = true) :
    goFuel (fuel + 2) (h :: (body ++ [ansLine])) pending =
      ([buildRecord (trimChars h ++ (body.map trimChars).flatten)
          (trimChars (splitColon1Last (trimChars ansLine)))],
       closeBlocks pending ++
         renderQuestion (buildRecord (trimChars h ++ (body.map trimChars).flatten)
           (trimChars (splitColon1Last (trimChars ansLine)))) ++
         [answerBlock (trimChars (splitColon1Last (trimChars ansLine)))]) := by
  have hcb : collectBlock (body ++ [ansLine]) = ((body.map trimChars).flatten, [ansLine]) :=
    collectBlock_append body ansLine [] hb (marker_isBoundary _ ha)
  have has : answerStep [ansLine] =
      (trimChars (splitColon1Last (trimChars ansLine)), []) := by
    rw [answerStep, if_pos ha]
  rw [show fuel + 2 = (fuel + 1) + 1 from rfl,
    goFuel_header (fuel + 1) h (body ++ [ansLine]) pending hh, hcb]
  simp [has, goFuel_nil, closeBlocks]

/-- C8, witness: the theorem applied to the concrete input
`["1. Q", "A. x", "<marker>Answer: A. x"]`, whose final lines are a complete
question/answer pair. -/
theorem claim_c8_witness :
    goFuel (0 + 2) ("1. Q".data :: (["A. x".data] ++ ["âœ… Answer: A. x".data])) none =
      ([buildRecord (trimChars "1. Q".data ++ (["A. x".data].map trimChars).flatten)
          (trimChars (splitColon1Last (trimChars "âœ… Answer: A. x".data)))],
       closeBlocks none ++
         renderQuestion (buildRecord (trimChars "1. Q".data ++ (["A. x".data].map trimChars).flatten)
           (trimChars (splitColon1Last (trimChars "âœ… Answer: A. x".data)))) ++
         [answerBlock (trimChars (splitColon1Last (trimChars "âœ… Answer: A. x".data)))]) :=
  claim_c8_eof_flush "1. Q".data "âœ… Answer: A. x".data ["A. x".data] 0 none
    (by decide) (by decide) (by decide)

/-- C7: for every ordered sequence of paragraph strings, the Line
Classifier's output is exactly the filter of the trimmed non-empty lines by
the four kept shapes (question header, answer-marker line, option line,
known continuation phrase), and is therefore an order-preserving
subsequence of the trimmed non-empty input lines; every other line is
dropped (the classifier is total, so nothing is raised). -/
theorem claim_c7_classifier (paras : List (List Char)) :
    extract_quiz_content paras =
      ((paras.map trimChars).filter (fun t => !t.isEmpty)).filter keepLine ∧
    (extract_quiz_content paras).Sublist
      ((paras.map trimChars).filter (fun t => !t.isEmpty)) := by
  have h1 : extract_quiz_content paras =
      ((paras.map trimChars).filter (fun t => !t.isEmpty)).filter keepLine := by
    induction paras with
    | nil => rfl
    | cons p ps ih =>
      by_cases h0 : trimChars p = []
      · simp [extract_quiz_content, h0, List.filter_cons, ih]
      · have hne : (trimChars p).isEmpty = false := by
          cases hE : (trimChars p).isEmpty
          · rfl
          · exact absurd (List.isEmpty_iff.mp hE) h0
        by_cases hH : isHeader (trimChars p) = true <;>
          by_cases hM : answerMarker.isPrefixOf (trimChars p) = true <;>
          by_cases hO : (startsOption (trimChars p)
              || lowerStarts "to increase profit".data (trimChars p)
              || lowerStarts "they eliminate human".data (trimChars p)
              || lowerStarts "using encryption to".data (trimChars p)) = true <;>
          simp [extract_quiz_content, keepLine, List.filter_cons, h0, hne, hH, hM, hO, ih]
  exact ⟨h1, h1 ▸ List.filter_sublist _⟩

/-- C9: when a question header is followed by two continuation lines before
the first option line (the first occurrence of `"A."` in the merged block
is exactly where the post-continuation blob starts), the emitted record's
text is the header's post-label text and the two continuation fragments
concatenated in order and trimmed, and its options are segmented from the
whole post-continuation blob, so no option is lost. -/
theorem claim_c9_multiline (h c1 c2 : List Char) (tail : List (List Char)) (fuel : Nat)
    (pending : Option (List Char))
    (hh : isHeader (trimChars h) = true)
    (hc1 : isBoundary (trimChars c1) = false)
    (hc2 : isBoundary (trimChars c2) = false)
    (hA : findAPos (trimChars h ++ trimChars c1 ++ trimChars c2 ++ (collectBlock tail).1) =
      some (trimChars h ++ trimChars c1 ++ trimChars c2).length) :
    ∃ q, (goFuel (fuel + 1) (h :: c1 :: c2 :: tail) pending).1.head? = some q ∧
      q.text = trimChars ((splitDot1 (trimChars h)).2 ++ trimChars c1 ++ trimChars c2) ∧
      q.options = finalOptions (trimChars (collectBlock tail).1) := by
  have hcb : collectBlock (c1 :: c2 :: tail) =
      (trimChars c1 ++ (trimChars c2 ++ (collectBlock tail).1), (collectBlock tail).2) := by
    rw [collectBlock_cons_nb c1 _ hc1, collectBlock_cons_nb c2 _ hc2]
  have hqb : trimChars h ++ (trimChars c1 ++ (trimChars c2 ++ (collectBlock tail).1)) =
      (trimChars h ++ trimChars c1 ++ trimChars c2) ++ (collectBlock tail).1 := by
    simp [List.append_assoc]
  obtain ⟨pre, post, hth, hpre, hdig⟩ := isHeader_shape (trimChars h) hh
  have hnd : '.' ∉ pre := fun hm => absurd (hdig '.' hm) (by decide)
  have hsplit_th : splitDot1 (trimChars h) = (pre, ' ' :: post) := by
    rw [hth]; exact splitDot1_append pre (' ' :: post) hnd
  have hform : (trimChars h ++ trimChars c1 ++ trimChars c2) ++ (collectBlock tail).1 =
      pre ++ '.' :: ((' ' :: (post ++ trimChars c1 ++ trimChars c2)) ++ (collectBlock tail).1) := by
    rw [hth]; simp [List.append_assoc]
  have hsplit : splitDot1 ((trimChars h ++ trimChars c1 ++ trimChars c2) ++ (collectBlock tail).1) =
      (pre, (' ' :: (post ++ trimChars c1 ++ trimChars c2)) ++ (collectBlock tail).1) := by
    rw [hform]; exact splitDot1_append pre _ hnd
  have hlen : (' ' :: (post ++ trimChars c1 ++ trimChars c2)).length =
      (trimChars h ++ trimChars c1 ++ trimChars c2).length - pre.length - 1 := by
    rw [hth]; simp [List.length_append]
  rw [goFuel_header fuel h (c1 :: c2 :: tail) pending hh, hcb]
  refine ⟨_, rfl, ?_, ?_⟩
  · rw [hqb]
    simp only [buildRecord, hA]
    rw [hsplit]
    simp only
    rw [← hlen, List.take_left, hsplit_th]
    simp [List.cons_append, List.append_assoc]
  · rw [hqb]
    simp only [buildRecord, hA]
    rw [List.drop_left]

/-- C9, witness: the theorem applied to the concrete input
`["1. What", "is", "X?", "A. x"]` (header, two continuation lines, one
option line). -/
theorem claim_c9_witness :
    ∃ q, (goFuel (0 + 1) ("1. What".data :: "is".data :: "X?".data :: ["A. x".data]) none).1.head? =
        some q ∧
      q.text = trimChars ((splitDot1 (trimChars "1. What".data)).2 ++ trimChars "is".data ++
        trimChars "X?".data) ∧
      q.options = finalOptions (trimChars (collectBlock ["A. x".data]).1) :=
  claim_c9_multiline "1. What".data "is".data "X?".data ["A. x".data] 0 none
    (by decide) (by decide) (by decide) (by decide)

end Quiz
